import Mathlib

/-!
Verification of the `bigfoont` braille rendering library
(`src/bigfoont/braille.py`) against its design specification.

The Python module is shallowly embedded below: each Python function is
translated into an executable Lean definition over `List`/`Nat`/`Int`,
Python exceptions are modelled with `Option`/`Except`, and Python's
`re` module is modelled by a backtracking matcher specialised to the two
concrete patterns the module uses.
-/

set_option autoImplicit false
set_option maxRecDepth 100000

namespace Bigfoont

/-! ## Braille encoder (`BRAILLE_BASE`, `BRAILLE_DOTS`, `_bitmap_to_braille`) -/

/-- `BRAILLE_BASE = 0x2800`. -/
def BRAILLE_BASE : Nat := 0x2800

/-- `BRAILLE_DOTS`: the fixed `(dx, dy, bit)` table from the source. -/
def BRAILLE_DOTS : List (Nat × Nat × Nat) :=
  [(0, 0, 0x01), (0, 1, 0x02), (0, 2, 0x04), (0, 3, 0x40),
   (1, 0, 0x08), (1, 1, 0x10), (1, 2, 0x20), (1, 3, 0x80)]

/-- Reading pixel `bitmap[r][c]` of a row-major boolean canvas.  Out-of-range
reads return `false`; the Python code only indexes after an explicit bounds
check, so the two agree wherever the code reads. -/
def pixelAt (bm : List (List Bool)) (r c : Nat) : Bool :=
  (bm.getD r []).getD c false

/-- The guard `y + dy < height and x + dx < width and bitmap[y + dy][x + dx]`
from `_bitmap_to_braille`, with the target coordinates already added. -/
def cellCond (bm : List (List Bool)) (h w r c : Nat) : Bool :=
  decide (r < h) && decide (c < w) && pixelAt bm r c

/-- The inner loop of `_bitmap_to_braille`: starting from `BRAILLE_BASE`,
OR in `bit` for every dot of `BRAILLE_DOTS` whose pixel is set. -/
def cellCode (bm : List (List Bool)) (h w y x : Nat) : Nat :=
  BRAILLE_DOTS.foldl
    (fun code d => if cellCond bm h w (y + d.2.1) (x + d.1) then code ||| d.2.2 else code)
    BRAILLE_BASE

/-- One output line: `for x in range(0, width, 2)` producing a codepoint per
2-pixel column of the band starting at pixel row `y`. -/
def brailleLine (bm : List (List Bool)) (h w y : Nat) : List Nat :=
  (List.range ((w + 1) / 2)).map fun i => cellCode bm h w y (2 * i)

/-- All output lines: `for y in range(0, height, 4)`. -/
def brailleLines (bm : List (List Bool)) : List (List Nat) :=
  (List.range ((bm.length + 3) / 4)).map fun j =>
    brailleLine bm bm.length (bm.headD []).length (4 * j)

/-- `''.join(line)` over the codepoints of one line. -/
def lineStr (l : List Nat) : String :=
  String.mk (l.map Char.ofNat)

/-- `_bitmap_to_braille`: empty string on a degenerate canvas
(`not bitmap or not bitmap[0]`), otherwise the bands joined by newlines. -/
def bitmap_to_braille (bm : List (List Bool)) : String :=
  if bm.length = 0 ∨ (bm.headD []).length = 0 then ""
  else String.intercalate "\n" ((brailleLines bm).map lineStr)

/-- Spec-side description of one cell's dot bits: the OR, over the set pixels
of the 2×4 cell at `(y, x)`, of the bit assigned by the published dot map
`(0,0)→0x01, (0,1)→0x02, (0,2)→0x04, (0,3)→0x40, (1,0)→0x08, (1,1)→0x10,
(1,2)→0x20, (1,3)→0x80` (positions beyond the canvas edge are not set). -/
def specDotBits (bm : List (List Bool)) (h w y x : Nat) : Nat :=
  (if cellCond bm h w (y + 0) (x + 0) then 0x01 else 0) |||
  (if cellCond bm h w (y + 1) (x + 0) then 0x02 else 0) |||
  (if cellCond bm h w (y + 2) (x + 0) then 0x04 else 0) |||
  (if cellCond bm h w (y + 3) (x + 0) then 0x40 else 0) |||
  (if cellCond bm h w (y + 0) (x + 1) then 0x08 else 0) |||
  (if cellCond bm h w (y + 1) (x + 1) then 0x10 else 0) |||
  (if cellCond bm h w (y + 2) (x + 1) then 0x20 else 0) |||
  (if cellCond bm h w (y + 3) (x + 1) then 0x80 else 0)

theorem cellCode_eq_specDotBits (bm : List (List Bool)) (h w y x : Nat) :
    cellCode bm h w y x = BRAILLE_BASE ||| specDotBits bm h w y x := by
  simp only [cellCode, BRAILLE_DOTS, List.foldl_cons, List.foldl_nil, specDotBits, BRAILLE_BASE]
  generalize cellCond bm h w (y + 0) (x + 0) = b1
  generalize cellCond bm h w (y + 1) (x + 0) = b2
  generalize cellCond bm h w (y + 2) (x + 0) = b3
  generalize cellCond bm h w (y + 3) (x + 0) = b4
  generalize cellCond bm h w (y + 0) (x + 1) = b5
  generalize cellCond bm h w (y + 1) (x + 1) = b6
  generalize cellCond bm h w (y + 2) (x + 1) = b7
  generalize cellCond bm h w (y + 3) (x + 1) = b8
  revert b1 b2 b3 b4 b5 b6 b7 b8
  decide

theorem brailleLines_getD (bm : List (List Bool)) (j i : Nat)
    (hj : j < (brailleLines bm).length) (hi : i < ((brailleLines bm).getD j []).length) :
    ((brailleLines bm).getD j []).getD i 0 =
      cellCode bm bm.length (bm.headD []).length (4 * j) (2 * i) := by
  have hj' : j < (bm.length + 3) / 4 := by
    simpa [brailleLines] using hj
  have hline : (brailleLines bm).getD j [] =
      brailleLine bm bm.length (bm.headD []).length (4 * j) := by
    rw [brailleLines, List.getD_eq_getElem?_getD, List.getElem?_map, List.getElem?_range hj']
    rfl
  rw [hline] at hi ⊢
  have hi' : i < ((bm.headD []).length + 1) / 2 := by
    simpa [brailleLine] using hi
  rw [brailleLine, List.getD_eq_getElem?_getD, List.getElem?_map, List.getElem?_range hi']
  rfl

/-- C1: every cell of the encoder output is `U+2800` plus the OR of the bits
of the fixed dot map over the set pixels of that 2×4 cell; a canvas whose
only set pixel is `(0,0)` encodes to `U+2801`, and a canvas with all 8
positions of one cell set encodes to `U+28FF`. -/
theorem braille_cell_encoding :
    (∀ (bm : List (List Bool)) (j i : Nat),
        j < (brailleLines bm).length → i < ((brailleLines bm).getD j []).length →
        ((brailleLines bm).getD j []).getD i 0 =
          BRAILLE_BASE ||| specDotBits bm bm.length (bm.headD []).length (4 * j) (2 * i)) ∧
    bitmap_to_braille [[true, false], [false, false], [false, false], [false, false]] = "⠁" ∧
    bitmap_to_braille [[true, true], [true, true], [true, true], [true, true]] = "⣿" := by
  refine ⟨fun bm j i hj hi => ?_, by decide, by decide⟩
  rw [brailleLines_getD bm j i hj hi, cellCode_eq_specDotBits]

/-- Witness for C1's quantified part at a concrete canvas and cell. -/
theorem braille_cell_encoding_witness :
    ((brailleLines [[true, false], [false, false], [false, false], [false, false]]).getD 0 []).getD
        0 0 =
      BRAILLE_BASE |||
        specDotBits [[true, false], [false, false], [false, false], [false, false]] 4 2 0 0 := by
  have h := braille_cell_encoding.1
    [[true, false], [false, false], [false, false], [false, false]] 0 0 (by decide) (by decide)
  simpa using h

/-! ## Encoder output shape (claim C9) -/

/-- `bm` extended with `false` pixels to a whole number of 2×4 braille cells:
each row is padded on the right to width `2 * ceil(W / 2)` and all-`false`
rows are appended up to height `4 * ceil(H / 4)`. -/
def padCanvas (bm : List (List Bool)) : List (List Bool) :=
  bm.map
      (fun r =>
        r ++ List.replicate (2 * (((bm.headD []).length + 1) / 2) - (bm.headD []).length) false) ++
    List.replicate (4 * ((bm.length + 3) / 4) - bm.length)
      (List.replicate (2 * (((bm.headD []).length + 1) / 2)) false)

theorem getD_replicate_false (n c : Nat) : (List.replicate n false).getD c false = false := by
  rw [List.getD_eq_getElem?_getD, List.getElem?_replicate]
  split <;> rfl

theorem replicate_false_read (n c : Nat) : (List.replicate n false)[c]?.getD false = false := by
  rw [List.getElem?_replicate]
  split <;> rfl

theorem getD_append_replicate_false (row : List Bool) (k c : Nat) :
    (row ++ List.replicate k false).getD c false = row.getD c false := by
  rw [List.getD_eq_getElem?_getD, List.getD_eq_getElem?_getD]
  rcases Nat.lt_or_ge c row.length with h | h
  · rw [List.getElem?_append_left h]
  · rw [List.getElem?_append_right h, List.getElem?_eq_none h, List.getElem?_replicate]
    split <;> rfl

theorem pixelAt_padCanvas (bm : List (List Bool))
    (hrect : ∀ row ∈ bm, row.length = (bm.headD []).length) (r c : Nat) :
    pixelAt (padCanvas bm) r c = cellCond bm bm.length (bm.headD []).length r c := by
  simp only [pixelAt, cellCond, List.getD_eq_getElem?_getD, padCanvas]
  rcases Nat.lt_or_ge r bm.length with hr | hr
  · have hmr : r < (List.map (fun row =>
        row ++ List.replicate
          (2 * (((bm.headD []).length + 1) / 2) - (bm.headD []).length) false) bm).length := by
      rw [List.length_map]
      exact hr
    rw [List.getElem?_append_left hmr, List.getElem?_map, List.getElem?_eq_getElem hr]
    simp only [Option.map_some, Option.map_some', Option.getD_some]
    have hrow := getD_append_replicate_false (bm[r])
      (2 * (((bm.headD []).length + 1) / 2) - (bm.headD []).length) c
    rw [List.getD_eq_getElem?_getD, List.getD_eq_getElem?_getD] at hrow
    rw [hrow, decide_eq_true hr, Bool.true_and]
    rcases Nat.lt_or_ge c (bm.headD []).length with hc | hc
    · rw [decide_eq_true hc, Bool.true_and]
    · have hlen : (bm[r]).length = (bm.headD []).length := hrect _ (List.getElem_mem hr)
      have hnone : (bm[r] : List Bool)[c]? = none := List.getElem?_eq_none (by omega)
      rw [hnone, decide_eq_false (Nat.not_lt.mpr hc), Bool.false_and]
      rfl
  · have hmr : (List.map (fun row =>
        row ++ List.replicate
          (2 * (((bm.headD []).length + 1) / 2) - (bm.headD []).length) false) bm).length ≤ r := by
      rw [List.length_map]
      exact hr
    rw [List.getElem?_append_right hmr, List.getElem?_replicate,
      decide_eq_false (Nat.not_lt.mpr hr), Bool.false_and, Bool.false_and]
    split
    · rw [Option.getD_some, replicate_false_read]
    · rfl

theorem cellCond_padCanvas (bm : List (List Bool))
    (hrect : ∀ row ∈ bm, row.length = (bm.headD []).length) (r c : Nat) :
    cellCond (padCanvas bm) (4 * ((bm.length + 3) / 4)) (2 * (((bm.headD []).length + 1) / 2)) r c =
      cellCond bm bm.length (bm.headD []).length r c := by
  conv_lhs => rw [cellCond]
  rw [pixelAt_padCanvas bm hrect r c]
  by_cases hr : r < 4 * ((bm.length + 3) / 4)
  · by_cases hc : c < 2 * (((bm.headD []).length + 1) / 2)
    · rw [decide_eq_true hr, decide_eq_true hc, Bool.true_and, Bool.true_and]
    · have hcW : ¬c < (bm.headD []).length := by omega
      conv_rhs => rw [cellCond]
      rw [decide_eq_false hc, Bool.and_false, Bool.false_and,
        decide_eq_false hcW, Bool.and_false, Bool.false_and]
  · have hrH : ¬r < bm.length := by omega
    conv_rhs => rw [cellCond]
    rw [decide_eq_false hr, Bool.false_and, Bool.false_and,
      decide_eq_false hrH, Bool.false_and, Bool.false_and]

theorem padCanvas_length (bm : List (List Bool)) :
    (padCanvas bm).length = 4 * ((bm.length + 3) / 4) := by
  simp [padCanvas]
  omega

theorem padCanvas_head_length (bm : List (List Bool)) :
    ((padCanvas bm).headD []).length = 2 * (((bm.headD []).length + 1) / 2) := by
  cases bm with
  | nil => simp [padCanvas]
  | cons r t =>
    simp [padCanvas]
    omega

theorem cellCode_padCanvas (bm : List (List Bool))
    (hrect : ∀ row ∈ bm, row.length = (bm.headD []).length) (y x : Nat) :
    cellCode (padCanvas bm) (padCanvas bm).length ((padCanvas bm).headD []).length y x =
      cellCode bm bm.length (bm.headD []).length y x := by
  rw [padCanvas_length, padCanvas_head_length]
  simp only [cellCode, cellCond_padCanvas bm hrect]

theorem brailleLines_padCanvas (bm : List (List Bool))
    (hrect : ∀ row ∈ bm, row.length = (bm.headD []).length) :
    brailleLines (padCanvas bm) = brailleLines bm := by
  unfold brailleLines
  have hH : ((padCanvas bm).length + 3) / 4 = (bm.length + 3) / 4 := by
    rw [padCanvas_length]; omega
  have hW : (((padCanvas bm).headD []).length + 1) / 2 = ((bm.headD []).length + 1) / 2 := by
    rw [padCanvas_head_length]; omega
  rw [hH]
  refine List.map_congr_left fun j _ => ?_
  unfold brailleLine
  rw [hW]
  refine List.map_congr_left fun i _ => ?_
  exact cellCode_padCanvas bm hrect _ _

/-- C9: for a non-degenerate rectangular canvas the encoder output has
`ceil(H/4)` lines of `ceil(W/2)` characters each, bands are joined by a
single newline with no separator inside a band, and the trailing partial
cells read as `false` (padding the canvas with `false` to whole cells does
not change the output); a degenerate canvas yields the empty string. -/
theorem encoder_output_shape :
    (∀ bm : List (List Bool), bm ≠ [] → bm.headD [] ≠ [] →
      (∀ row ∈ bm, row.length = (bm.headD []).length) →
      (brailleLines bm).length = (bm.length + 3) / 4 ∧
      (∀ l ∈ brailleLines bm, l.length = ((bm.headD []).length + 1) / 2) ∧
      bitmap_to_braille bm = String.intercalate "\n" ((brailleLines bm).map lineStr) ∧
      bitmap_to_braille (padCanvas bm) = bitmap_to_braille bm) ∧
    bitmap_to_braille [] = "" ∧
    (∀ rest : List (List Bool), bitmap_to_braille ([] :: rest) = "") := by
  refine ⟨fun bm hbm hrow hrect => ⟨?_, ?_, ?_, ?_⟩, rfl, fun rest => rfl⟩
  · simp [brailleLines]
  · intro l hl
    simp only [brailleLines, List.mem_map] at hl
    obtain ⟨j, _, rfl⟩ := hl
    simp [brailleLine]
  · have h0 : ¬(bm.length = 0 ∨ (bm.headD []).length = 0) := by
      push_neg
      exact ⟨by simpa using hbm, by simpa using hrow⟩
    rw [bitmap_to_braille, if_neg h0]
  · have h0 : ¬(bm.length = 0 ∨ (bm.headD []).length = 0) := by
      push_neg
      exact ⟨by simpa using hbm, by simpa using hrow⟩
    have h0' : ¬((padCanvas bm).length = 0 ∨ ((padCanvas bm).headD []).length = 0) := by
      rw [padCanvas_length, padCanvas_head_length]
      push_neg
      constructor <;> omega
    rw [bitmap_to_braille, bitmap_to_braille, if_neg h0, if_neg h0',
      brailleLines_padCanvas bm hrect]

/-- Witness for C9 at a concrete 5×3 canvas (2 bands of 2 characters). -/
theorem encoder_output_shape_witness :
    (brailleLines [[true, false, true], [false, false, false], [false, false, false],
          [false, false, false], [true, true, true]]).length = 2 ∧
    bitmap_to_braille (padCanvas [[true, false, true], [false, false, false],
          [false, false, false], [false, false, false], [true, true, true]]) =
      bitmap_to_braille [[true, false, true], [false, false, false], [false, false, false],
          [false, false, false], [true, true, true]] := by
  have h := encoder_output_shape.1
    [[true, false, true], [false, false, false], [false, false, false],
      [false, false, false], [true, true, true]]
    (by decide) (by decide) (by decide)
  exact ⟨h.1, h.2.2.2⟩

/-! ## Size presets (`PRESETS`, `get_preset`) -/

/-- `PRESETS`: `(braille_w, braille_h) -> (pixel_w, pixel_h, description)`. -/
def PRESETS : List ((Nat × Nat) × (Nat × Nat × String)) :=
  [((4, 2), (8, 8, "8x8 - tiny")),
   ((4, 4), (8, 16, "8x16 - compact")),
   ((8, 4), (16, 16, "16x16 - standard")),
   ((8, 6), (16, 24, "16x24 - tall")),
   ((12, 6), (24, 24, "24x24 - large")),
   ((16, 8), (32, 32, "32x32 - extra large"))]

/-- `get_preset`: `PRESETS.get((w, h), (None,))[:2] or (w * 2, h * 4)`.
The Python value is a tuple of optional ints, modelled as `List (Option Nat)`:
a present entry slices to `[pw, ph]`; an absent key slices the default
`(None,)` to `(None,)` itself.  Python's `x or y` returns `x` when `x` is
truthy, and a tuple is truthy iff it is nonempty. -/
def get_preset (braille_w braille_h : Nat) : List (Option Nat) :=
  let sliced : List (Option Nat) :=
    match PRESETS.lookup (braille_w, braille_h) with
    | some v => [some v.1, some v.2.1]
    | none => [none]
  if sliced = [] then [some (braille_w * 2), some (braille_h * 4)] else sliced

/-- C3 (code bug): `(8,4)` resolves to `(16,16)` as claimed, but an unlisted
pair `(5,3)` returns the sliced default `(None,)` — a truthy 1-tuple — so the
`or` fallback `(w*2, h*4)` is unreachable and `(10,12)` is never produced,
contradicting `get_preset`'s own docstring. -/
theorem get_preset_eval :
    get_preset 8 4 = [some 16, some 16] ∧
    get_preset 5 3 = [none] ∧
    get_preset 5 3 ≠ [some 10, some 12] := by
  refine ⟨by decide, by decide, by decide⟩

/-! ## A model of the Python `re` backtracking matcher

`BDFFont._parse` uses exactly two patterns:

* `ENCODING\s+(\d+)\s*\n.*?BBX\s+(\d+)\s+(\d+)\s+(-?\d+)\s+(-?\d+)\s*\n.*?BITMAP\s*\n(.*?)\nENDCHAR`
  with `re.DOTALL` under `re.finditer`, and
* `FONTBOUNDINGBOX\s+(\d+)\s+(\d+)` under `re.search`.

Both are flat sequences of literals, character-class quantifiers and lazy
dots, so the standard backtracking semantics of Python's `re` is: try each
atom's possible lengths in preference order (greedy = longest first,
lazy = shortest first) and take the first full completion.  `tryMatch`
below implements exactly that; `scanMatches` implements the leftmost
non-overlapping scan of `finditer`, resuming after each match's end. -/

/-- `\s` on the ASCII characters occurring in font sources. -/
def isWs (c : Char) : Bool :=
  c = ' ' || c = '\t' || c = '\n' || c = '\r' || c = '\x0b' || c = '\x0c'

/-- `\d`. -/
def isDigitCh (c : Char) : Bool := c.isDigit

/-- One atom of a flat Python regex: a literal, `\s+`, `\s*`, a capturing
`(\d+)`, a capturing `(-?\d+)`, an uncaptured `.*?` or a capturing `(.*?)`
(the dot matching newlines, as under `re.DOTALL`). -/
inductive Atom where
  | lit (cs : List Char)
  | wsPlus
  | wsStar
  | num
  | snum
  | dotLazy
  | dotLazyCap

def isCapture : Atom → Bool
  | .num | .snum | .dotLazyCap => true
  | _ => false

/-- Length of the maximal run of characters satisfying `p`. -/
def runLen (p : Char → Bool) : List Char → Nat
  | [] => 0
  | c :: t => if p c then runLen p t + 1 else 0

/-- The lengths a single atom may consume at the head of `s`, in the order
Python's backtracking engine tries them. -/
def candidates (a : Atom) (s : List Char) : List Nat :=
  match a with
  | .lit cs => if cs.isPrefixOf s then [cs.length] else []
  | .wsPlus => let n := runLen isWs s; (List.range n).map (fun i => n - i)
  | .wsStar => let n := runLen isWs s; (List.range (n + 1)).map (fun i => n - i)
  | .num => let n := runLen isDigitCh s; (List.range n).map (fun i => n - i)
  | .snum =>
    match s with
    | '-' :: t => let n := runLen isDigitCh t; (List.range n).map (fun i => n + 1 - i)
    | _ => let n := runLen isDigitCh s; (List.range n).map (fun i => n - i)
  | .dotLazy | .dotLazyCap => List.range (s.length + 1)

/-- Backtracking match of a flat atom sequence at the head of `s`: returns
the remaining suffix and the captured groups in order.  The `fuel`
argument only makes the recursion structural; one unit is spent per atom,
so `fuel = pattern length` never runs out. -/
def tryMatchF : Nat → List Atom → List Char → Option (List Char × List (List Char))
  | _, [], s => some (s, [])
  | 0, _ :: _, _ => none
  | fuel + 1, a :: rest, s =>
    (candidates a s).findSome? fun n =>
      (tryMatchF fuel rest (s.drop n)).map fun r =>
        (r.1, if isCapture a then s.take n :: r.2 else r.2)

def tryMatch (pat : List Atom) (s : List Char) : Option (List Char × List (List Char)) :=
  tryMatchF pat.length pat s

/-- `re.finditer`: leftmost matches, scanning resumes at each match's end.
`fuel` bounds the number of scan steps; `s.length + 1` always suffices
because every match of our patterns is nonempty. -/
def scanMatches (pat : List Atom) : Nat → List Char → List (List (List Char))
  | 0, _ => []
  | fuel + 1, s =>
    match tryMatch pat s with
    | some (rest, caps) => caps :: scanMatches pat fuel rest
    | none =>
      match s with
      | [] => []
      | _ :: t => scanMatches pat fuel t

/-- `re.search`: the captures of the leftmost match, if any. -/
def searchPat (pat : List Atom) : Nat → List Char → Option (List (List Char))
  | 0, _ => none
  | fuel + 1, s =>
    match tryMatch pat s with
    | some (_, caps) => some caps
    | none =>
      match s with
      | [] => none
      | _ :: t => searchPat pat fuel t

/-- The per-glyph record pattern of `BDFFont._parse`. -/
def charPat : List Atom :=
  [.lit "ENCODING".toList, .wsPlus, .num, .wsStar, .lit ['\n'],
   .dotLazy, .lit "BBX".toList,
   .wsPlus, .num, .wsPlus, .num, .wsPlus, .snum, .wsPlus, .snum, .wsStar, .lit ['\n'],
   .dotLazy, .lit "BITMAP".toList, .wsStar, .lit ['\n'],
   .dotLazyCap, .lit ('\n' :: "ENDCHAR".toList)]

/-- The `FONTBOUNDINGBOX` pattern of `BDFFont._parse`. -/
def fbbPat : List Atom :=
  [.lit "FONTBOUNDINGBOX".toList, .wsPlus, .num, .wsPlus, .num]

def finditerBDF (s : List Char) : List (List (List Char)) :=
  scanMatches charPat (s.length + 1) s

def reSearchFBB (s : List Char) : Option (List (List Char)) :=
  searchPat fbbPat (s.length + 1) s

/-! ## `BDFFont` -/

/-- `int(·)` on a `\d+` capture. -/
def natOfDigits (cs : List Char) : Nat :=
  cs.foldl (fun a c => a * 10 + (c.toNat - '0'.toNat)) 0

/-- `int(·)` on a `-?\d+` capture. -/
def intOfSigned (cs : List Char) : Int :=
  match cs with
  | '-' :: t => -(natOfDigits t : Int)
  | _ => (natOfDigits cs : Int)

def isHexDigitCh (c : Char) : Bool :=
  c.isDigit || ('a' ≤ c && c ≤ 'f') || ('A' ≤ c && c ≤ 'F')

def hexDigitVal (c : Char) : Nat :=
  if c.isDigit then c.toNat - '0'.toNat
  else if 'a' ≤ c && c ≤ 'f' then c.toNat - 'a'.toNat + 10
  else c.toNat - 'A'.toNat + 10

/-- `int(line, 16)`: `none` models the `ValueError` Python raises on a
non-hexadecimal line.  (Python also accepts signs, `0x` prefixes and
underscores; bitmap lines never use those forms.) -/
def parseHexNat (cs : List Char) : Option Nat :=
  if cs ≠ [] ∧ cs.all isHexDigitCh then
    some (cs.foldl (fun a c => a * 16 + hexDigitVal c) 0)
  else none

/-- `str.strip()`. -/
def stripWs (cs : List Char) : List Char :=
  ((cs.dropWhile isWs).reverse.dropWhile isWs).reverse

/-- `[bool(val & (1 << (7 - bit))) for bit in range(w)]`.  For `w > 8` the
shift count `7 - bit` goes negative and Python raises `ValueError`,
modelled as `none`. -/
def decodeRow (val : Nat) (w : Nat) : Option (List Bool) :=
  if w ≤ 8 then
    some ((List.range w).map fun bit => decide (val &&& (1 <<< (7 - bit)) ≠ 0))
  else none

/-- The bitmap loop of `BDFFont._parse`: split the captured block on
newlines, skip blank lines, hex-decode each remaining line into `w`
booleans.  Any Python exception propagates as `none`. -/
def parseBitmapBlock (w : Nat) (blk : List Char) : Option (List (List Bool)) :=
  ((stripWs blk).splitOn '\n').foldlM
    (fun rows line =>
      let t := stripWs line
      if t = [] then some rows
      else do
        let val ← parseHexNat t
        let row ← decodeRow val w
        pure (rows ++ [row]))
    []

/-- One glyph record: `(w, h, x_off, y_off, bitmap)` keyed by encoding. -/
structure Glyph where
  w : Nat
  h : Nat
  x_off : Int
  y_off : Int
  bitmap : List (List Bool)
deriving DecidableEq

/-- The glyph built from one `finditer` match's captures. -/
def glyphFromCaps (caps : List (List Char)) : Option (Nat × Glyph) :=
  match caps with
  | [encS, wS, hS, xS, yS, bmS] =>
    (parseBitmapBlock (natOfDigits wS) bmS).map fun bitmap =>
      (natOfDigits encS,
       ⟨natOfDigits wS, natOfDigits hS, intOfSigned xS, intOfSigned yS, bitmap⟩)
  | _ => none

/-- `self.glyphs[enc] = ...`: Python dict assignment replaces an existing
key's value in place, otherwise appends. -/
def upsert (gs : List (Nat × Glyph)) (enc : Nat) (g : Glyph) : List (Nat × Glyph) :=
  if (gs.lookup enc).isSome then gs.map (fun p => if p.1 = enc then (enc, g) else p)
  else gs ++ [(enc, g)]

structure BDFFont where
  glyphs : List (Nat × Glyph)
  width : Nat
  height : Nat
deriving DecidableEq

/-- `BDFFont._parse` applied to the already-read text content (`path.read_text()`
itself — the only I/O — is outside the embedding).  A `none` result models an
exception escaping `_parse`. -/
def parseBDF (content : List Char) : Option BDFFont :=
  let wh : Nat × Nat :=
    match reSearchFBB content with
    | some [wS, hS] => (natOfDigits wS, natOfDigits hS)
    | _ => (4, 8)
  ((finditerBDF content).foldlM
      (fun gs caps => (glyphFromCaps caps).map fun p => upsert gs p.1 p.2) []).map
    fun gs => ⟨gs, wh.1, wh.2⟩

/-! ## Claim C2: bitmap row decoding -/

/-- C2 counterexample: the code hex-decodes the whole row into one integer
and tests bit `7 - i` of that integer, so a row given as one byte (`F0`)
and the same row with a trailing padding byte (`F000`) decode differently
at width 4 — the claim's padding-independence fails. -/
theorem decodeRow_padding_counterexample :
    parseHexNat "F0".toList = some 240 ∧
    parseHexNat "F000".toList = some 61440 ∧
    decodeRow 240 4 = some [true, true, true, true] ∧
    decodeRow 61440 4 = some [false, false, false, false] ∧
    decodeRow 240 4 ≠ decodeRow 61440 4 := by
  refine ⟨by decide, by decide, by decide, by decide, by decide⟩

/-- C2 amended: for `w ≤ 8` a row decodes to exactly `w` booleans, boolean
`i` being bit `7 - i` of the integer value of the whole hex row (so the
result depends on padding bytes, which change that value); for `w > 8`
the decode raises (`none`). -/
theorem decodeRow_testBit :
    (∀ val w, w ≤ 8 →
      decodeRow val w = some ((List.range w).map fun i => val.testBit (7 - i))) ∧
    (∀ val w, 8 < w → decodeRow val w = none) := by
  constructor
  · intro val w hw
    rw [decodeRow, if_pos hw]
    refine congrArg some (List.map_congr_left fun i _ => ?_)
    generalize 7 - i = k
    rw [Nat.shiftLeft_eq, one_mul, Nat.and_two_pow]
    have h2 : (2 : Nat) ^ k ≠ 0 := pow_ne_zero k two_ne_zero
    cases h : val.testBit k
    · simp
    · simp [h2]
  · intro val w hw
    rw [decodeRow, if_neg (by omega)]

/-- Witness for C2's amended theorem at `val = 240`, `w = 4` and `w = 9`. -/
theorem decodeRow_testBit_witness :
    decodeRow 240 4 = some ((List.range 4).map fun i => (240).testBit (7 - i)) ∧
    decodeRow 240 9 = none :=
  ⟨decodeRow_testBit.1 240 4 (by decide), decodeRow_testBit.2 240 9 (by decide)⟩

/-! ## Claim C5: totality of the decoder -/

theorem glyphFold_isSome (ms : List (List (List Char)))
    (h : ∀ caps ∈ ms, (glyphFromCaps caps).isSome) :
    ∀ acc : List (Nat × Glyph),
      (ms.foldlM (fun gs caps => (glyphFromCaps caps).map fun p => upsert gs p.1 p.2)
        acc).isSome := by
  induction ms with
  | nil => intro acc; rfl
  | cons c t ih =>
    intro acc
    obtain ⟨p, hp⟩ := Option.isSome_iff_exists.mp (h c (by simp))
    have ht : ∀ caps ∈ t, (glyphFromCaps caps).isSome := fun x hx => h x (by simp [hx])
    simp only [List.foldlM_cons, hp, Option.map_some', Option.bind_eq_bind,
      Option.some_bind]
    exact ih ht _

/-- C5 amended: the decoder returns a Font whenever every structurally
matched record decodes (all its nonempty bitmap lines are valid
hexadecimal and its declared width is at most 8);  otherwise a
`ValueError` escapes `_parse` (see the counterexample). -/
theorem parseBDF_total_when_rows_decode (content : List Char)
    (h : ∀ caps ∈ finditerBDF content, (glyphFromCaps caps).isSome) :
    (parseBDF content).isSome := by
  rw [parseBDF]
  obtain ⟨gs, hgs⟩ := Option.isSome_iff_exists.mp (glyphFold_isSome _ h [])
  simp [hgs]

/-- Witness for C5's amended theorem on a well-formed two-record source. -/
theorem parseBDF_total_witness :
    (parseBDF ("ENCODING 65\nBBX 1 1 0 0\nBITMAP\n80\nENDCHAR\n" ++
        "ENCODING 66\nBBX 1 1 0 0\nBITMAP\nC0\nENDCHAR\n").toList).isSome :=
  parseBDF_total_when_rows_decode _ (by decide)

/-- C5 counterexample: a record whose captured bitmap block contains a
non-hexadecimal line, and a record of declared width 9, each make `_parse`
raise `ValueError` (modelled `none`) — the decoder does not return a Font
for every source text. -/
theorem parseBDF_raises_counterexample :
    parseBDF "ENCODING 1\nBBX 1 1 0 0\nBITMAP\nZZ\nENDCHAR".toList = none ∧
    parseBDF "ENCODING 1\nBBX 9 1 0 0\nBITMAP\nFF80\nENDCHAR".toList = none := by
  refine ⟨by decide, by decide⟩

/-! ## Claim C4: handling of malformed records -/

/-- C4 counterexample: in a source holding a malformed record (`BBX` with
only two numbers) followed by two well-formed records (encodings 65, 66),
the malformed record's match swallows the first well-formed record — the
decoded font keys are `[7, 66]`, glyph 65 is lost, so the font does not
contain exactly the two well-formed glyphs. -/
theorem malformed_record_counterexample :
    ((parseBDF ("ENCODING 7\nBBX 1 1\nBITMAP\n80\nENDCHAR\n" ++
          "ENCODING 65\nBBX 1 1 0 0\nBITMAP\n80\nENDCHAR\n" ++
          "ENCODING 66\nBBX 1 1 0 0\nBITMAP\nC0\nENDCHAR\n").toList).map
        fun f => f.glyphs.map Prod.fst) = some [7, 66] ∧
    ((parseBDF ("ENCODING 7\nBBX 1 1\nBITMAP\n80\nENDCHAR\n" ++
          "ENCODING 65\nBBX 1 1 0 0\nBITMAP\n80\nENDCHAR\n" ++
          "ENCODING 66\nBBX 1 1 0 0\nBITMAP\nC0\nENDCHAR\n").toList).map
        fun f => (f.glyphs.lookup 65).isSome) = some false := by
  refine ⟨by decide, by decide⟩

/-- C4 amended: a malformed record whose `ENCODING` header itself fails to
match (here `ENCODING x`) is silently skipped and the two well-formed
records decode exactly, with their own encodings, dimensions, offsets and
bitmaps. -/
theorem skipped_record_parse :
    parseBDF ("ENCODING x\nBBX 1 1 0 0\nBITMAP\n80\nENDCHAR\n" ++
        "ENCODING 65\nBBX 1 1 0 0\nBITMAP\n80\nENDCHAR\n" ++
        "ENCODING 66\nBBX 1 1 0 0\nBITMAP\nC0\nENDCHAR\n").toList =
      some { glyphs := [(65, ⟨1, 1, 0, 0, [[true]]⟩), (66, ⟨1, 1, 0, 0, [[true]]⟩)],
             width := 4, height := 8 } := by
  decide

/-! ## Claim C8: glyph matrix invariant -/

theorem decodeRow_length (val w : Nat) (row : List Bool) (h : decodeRow val w = some row) :
    row.length = w := by
  rw [decodeRow] at h
  split at h
  · cases h
    simp
  · cases h

theorem parseBitmapBlock_rows (w : Nat) (ls : List (List Char)) :
    ∀ acc : List (List Bool), (∀ row ∈ acc, row.length = w) →
      ∀ bitmap, (ls.foldlM
          (fun rows line =>
            let t := stripWs line
            if t = [] then some rows
            else do
              let val ← parseHexNat t
              let row ← decodeRow val w
              pure (rows ++ [row]))
          acc) = some bitmap →
        ∀ row ∈ bitmap, row.length = w := by
  induction ls with
  | nil =>
    intro acc hacc bitmap hfold
    cases hfold
    exact hacc
  | cons l t ih =>
    intro acc hacc bitmap hfold
    rw [List.foldlM_cons] at hfold
    by_cases hblank : stripWs l = []
    · simp only [hblank, if_pos rfl, Option.bind_eq_bind, Option.some_bind] at hfold
      exact ih acc hacc bitmap hfold
    · simp only [if_neg hblank, Option.bind_eq_bind] at hfold
      cases hval : parseHexNat (stripWs l) with
      | none => rw [hval] at hfold; cases hfold
      | some val =>
        rw [hval] at hfold
        cases hrow : decodeRow val w with
        | none => simp [hrow] at hfold
        | some row =>
          simp only [hrow, Option.some_bind] at hfold
          refine ih (acc ++ [row]) ?_ bitmap hfold
          intro r hr
          rcases List.mem_append.mp hr with hr | hr
          · exact hacc r hr
          · rw [List.mem_singleton.mp hr]
            exact decodeRow_length val w row hrow

theorem glyphFromCaps_rows (caps : List (List Char)) (enc : Nat) (g : Glyph)
    (h : glyphFromCaps caps = some (enc, g)) : ∀ row ∈ g.bitmap, row.length = g.w := by
  unfold glyphFromCaps at h
  split at h
  · rename_i encS wS hS xS yS bmS
    cases hblk : parseBitmapBlock (natOfDigits wS) bmS with
    | none => rw [hblk] at h; cases h
    | some bitmap =>
      rw [hblk, Option.map_some'] at h
      cases h
      exact parseBitmapBlock_rows (natOfDigits wS) _ [] (by intro r hr; cases hr) bitmap hblk
  · cases h

theorem upsert_preserves (P : Glyph → Prop) (gs : List (Nat × Glyph)) (enc : Nat) (g : Glyph)
    (hgs : ∀ p ∈ gs, P p.2) (hg : P g) : ∀ p ∈ upsert gs enc g, P p.2 := by
  intro p hp
  rw [upsert] at hp
  split at hp
  · obtain ⟨q, hq, hqe⟩ := List.mem_map.mp hp
    by_cases he : q.1 = enc
    · rw [if_pos he] at hqe
      rw [← hqe]
      exact hg
    · rw [if_neg he] at hqe
      rw [← hqe]
      exact hgs q hq
  · rcases List.mem_append.mp hp with hp | hp
    · exact hgs p hp
    · rw [List.mem_singleton.mp hp]
      exact hg

theorem glyphFold_rows (ms : List (List (List Char))) :
    ∀ acc : List (Nat × Glyph), (∀ p ∈ acc, ∀ row ∈ p.2.bitmap, row.length = p.2.w) →
      ∀ gs, (ms.foldlM (fun gs caps => (glyphFromCaps caps).map fun p => upsert gs p.1 p.2)
          acc) = some gs →
        ∀ p ∈ gs, ∀ row ∈ p.2.bitmap, row.length = p.2.w := by
  induction ms with
  | nil =>
    intro acc hacc gs hfold
    cases hfold
    exact hacc
  | cons c t ih =>
    intro acc hacc gs hfold
    rw [List.foldlM_cons] at hfold
    cases hc : glyphFromCaps c with
    | none => simp [hc] at hfold
    | some p =>
      simp only [hc, Option.map_some', Option.bind_eq_bind, Option.some_bind] at hfold
      refine ih _ ?_ gs hfold
      exact upsert_preserves (fun g => ∀ row ∈ g.bitmap, row.length = g.w) acc p.1 p.2 hacc
        (glyphFromCaps_rows c p.1 p.2 (by rw [hc]))

/-- C8 amended: every glyph of a decoded font has rows of exactly `w`
booleans; but the number of rows is the number of nonempty lines of the
record's captured bitmap block, which need not equal the declared `h`
(see the counterexample). -/
theorem glyph_rows_width (content : List Char) (font : BDFFont)
    (h : parseBDF content = some font) :
    ∀ p ∈ font.glyphs, ∀ row ∈ p.2.bitmap, row.length = p.2.w := by
  rw [parseBDF] at h
  cases hfold : (finditerBDF content).foldlM
      (fun gs caps => (glyphFromCaps caps).map fun p => upsert gs p.1 p.2)
      ([] : List (Nat × Glyph)) with
  | none => rw [hfold] at h; cases h
  | some gs =>
    rw [hfold] at h
    cases h
    exact glyphFold_rows _ [] (by intro p hp; cases hp) gs hfold

/-- Witness for C8's amended theorem on a concrete decoded font, glyph and
row. -/
theorem glyph_rows_width_witness :
    ([true] : List Bool).length = 1 :=
  glyph_rows_width "ENCODING 65\nBBX 1 1 0 0\nBITMAP\n80\nENDCHAR".toList
    { glyphs := [(65, ⟨1, 1, 0, 0, [[true]]⟩)], width := 4, height := 8 } (by decide)
    (65, ⟨1, 1, 0, 0, [[true]]⟩) (by decide) [true] (by decide)

/-- C8 counterexample: a record declaring `h = 1` whose bitmap block has
two nonempty lines decodes to a glyph whose matrix has 2 rows, not `h`. -/
theorem glyph_matrix_counterexample :
    ¬(∀ content font, parseBDF content = some font →
        ∀ p ∈ font.glyphs, p.2.bitmap.length = p.2.h) := by
  intro hcl
  have h := hcl "ENCODING 65\nBBX 1 1 0 0\nBITMAP\n80\n40\nENDCHAR".toList
    { glyphs := [(65, ⟨1, 1, 0, 0, [[true], [false]]⟩)], width := 4, height := 8 }
    (by decide) (65, ⟨1, 1, 0, 0, [[true], [false]]⟩) (by decide)
  exact absurd h (by decide)

/-! ## `BDFFont.render` -/

/-- `bitmap[y][px] = True`. -/
def setPix (cv : List (List Bool)) (y x : Nat) : List (List Bool) :=
  cv.set y ((cv.getD y []).set x true)

/-- The inner column loop of `render`:
`for col_i, pixel in enumerate(row): px = x + x_off + col_i;
if pixel and 0 <= px < total_w: bitmap[y][px] = True`
(`xb` is `x + x_off`, `cells` is `enumerate(row)`). -/
def drawRow (tw : Int) (y : Nat) (xb : Int) (cv : List (List Bool))
    (cells : List (Nat × Bool)) : List (List Bool) :=
  cells.foldl
    (fun cv p =>
      if p.2 ∧ 0 ≤ xb + (p.1 : Int) ∧ xb + (p.1 : Int) < tw then
        setPix cv y (xb + (p.1 : Int)).toNat
      else cv)
    cv

/-- The row loop of `render` over the already-enumerated rows:
`for row_i, row in enumerate(glyph): y = y_start + row_i;
if 0 <= y < total_h: ...` (`ys` is `y_start`). -/
def drawRows (th tw ys xb : Int) (cv : List (List Bool))
    (qs : List (Nat × List Bool)) : List (List Bool) :=
  qs.foldl
    (fun cv q =>
      if 0 ≤ ys + (q.1 : Int) ∧ ys + (q.1 : Int) < th then
        drawRow tw (ys + (q.1 : Int)).toNat xb cv q.2.enum
      else cv)
    cv

def drawGlyph (th tw ys xb : Int) (cv : List (List Bool))
    (glyph : List (List Bool)) : List (List Bool) :=
  drawRows th tw ys xb cv glyph.enum

/-- The first loop of `render`: `max_ascent` and `max_descent`, both
starting from 0. -/
def metrics (font : BDFFont) (text : List Nat) : Int × Int :=
  text.foldl
    (fun ad ch =>
      match font.glyphs.lookup ch with
      | some g =>
        (max ad.1 ((g.h : Int) + g.y_off), max ad.2 (if g.y_off < 0 then -g.y_off else 0))
      | none => ad)
    (0, 0)

/-- `total_h = max_ascent + max_descent or self.height` (Python `or`
falls back when the sum is zero). -/
def totalH (font : BDFFont) (text : List Nat) : Int :=
  if (metrics font text).1 + (metrics font text).2 = 0 then (font.height : Int)
  else (metrics font text).1 + (metrics font text).2

/-- `total_w = len(text) * self.width + max(0, len(text) - 1) * spacing`. -/
def totalW (font : BDFFont) (text : List Nat) (spacing : Int) : Int :=
  (text.length : Int) * (font.width : Int) + max 0 ((text.length : Int) - 1) * spacing

/-- The body of `render`'s character loop: draw the glyph (if any) at the
cursor, then advance the cursor by `self.width + spacing`.  `A` is the
precomputed `max_ascent`. -/
def renderStep (font : BDFFont) (th tw A spacing : Int) :
    List (List Bool) × Int → Nat → List (List Bool) × Int :=
  fun acc ch =>
    match font.glyphs.lookup ch with
    | some g =>
      (drawGlyph th tw (A - (g.h : Int) - g.y_off) (acc.2 + g.x_off) acc.1 g.bitmap,
       acc.2 + (font.width : Int) + spacing)
    | none => (acc.1, acc.2 + (font.width : Int) + spacing)

/-- `BDFFont.render` (text already as character codes, as `ord` produces). -/
def render (font : BDFFont) (text : List Nat) (spacing : Int) : List (List Bool) :=
  (text.foldl
      (renderStep font (totalH font text) (totalW font text spacing)
        (metrics font text).1 spacing)
      (List.replicate (totalH font text).toNat
        (List.replicate (totalW font text spacing).toNat false), 0)).1

/-! ## Spec-side baseline formulas (claim C6's wording) -/

/-- Glyphs present for the text's characters, in text order. -/
def specPresent (font : BDFFont) (text : List Nat) : List Glyph :=
  text.filterMap fun ch => font.glyphs.lookup ch

/-- The claim's `maxAscent`: the maximum of `h + yOff` over present glyphs
(0 when no glyph is present). -/
def specMaxAscent (font : BDFFont) (text : List Nat) : Int :=
  (((specPresent font text).map fun g => (g.h : Int) + g.y_off).max?).getD 0

/-- The claim's `maxDescent`: the maximum of `-yOff` over present glyphs
with `yOff < 0`, else 0. -/
def specMaxDescent (font : BDFFont) (text : List Nat) : Int :=
  (((specPresent font text).map fun g => if g.y_off < 0 then -g.y_off else 0).max?).getD 0

/-- The claim's canvas height: `maxAscent + maxDescent`, falling back to
the font's default height when both are zero. -/
def specHeight (font : BDFFont) (text : List Nat) : Int :=
  if specMaxAscent font text + specMaxDescent font text = 0 then (font.height : Int)
  else specMaxAscent font text + specMaxDescent font text

/-- The placed-ink predicate: pixel `(r, c)` carries ink iff some character
`i` of the text has a glyph `g` whose bitmap is `true` at `(ri, ci)`, where
`r` is the glyph's vertical origin `A - h - yOff` plus `ri`, and `c` is the
character's cell start `i * (width + spacing)` plus `xOff` plus `ci`,
clipped to the canvas. -/
def specInk (font : BDFFont) (text : List Nat) (spacing : Int) (A : Int) (H W : Nat)
    (r c : Nat) : Prop :=
  ∃ (i ch : Nat) (g : Glyph), text[i]? = some ch ∧ font.glyphs.lookup ch = some g ∧
    ∃ (ri : Nat) (row : List Bool),
      g.bitmap[ri]? = some row ∧ (r : Int) = A - (g.h : Int) - g.y_off + (ri : Int) ∧
      r < H ∧
      ∃ ci : Nat, row[ci]? = some true ∧
        (c : Int) = (i : Int) * ((font.width : Int) + spacing) + g.x_off + (ci : Int) ∧ c < W

/-! ## Canvas lemmas -/

/-- Canvas `cv` has `H` rows, each of width `W`. -/
def dims (cv : List (List Bool)) (H W : Nat) : Prop :=
  cv.length = H ∧ ∀ row ∈ cv, row.length = W

theorem dims_replicate (H W : Nat) :
    dims (List.replicate H (List.replicate W false)) H W := by
  refine ⟨by simp, fun row hrow => ?_⟩
  rw [List.eq_of_mem_replicate hrow]
  simp

theorem pixelAt_replicate_false (H W r c : Nat) :
    pixelAt (List.replicate H (List.replicate W false)) r c = false := by
  simp only [pixelAt, List.getD_eq_getElem?_getD, List.getElem?_replicate]
  split
  · rw [Option.getD_some]
    exact replicate_false_read W c
  · rfl

theorem getD_row_length {cv : List (List Bool)} {H W : Nat} (h : dims cv H W) {y : Nat}
    (hy : y < H) : (cv.getD y []).length = W := by
  have hy' : y < cv.length := h.1 ▸ hy
  rw [List.getD_eq_getElem?_getD, List.getElem?_eq_getElem hy', Option.getD_some]
  exact h.2 _ (List.getElem_mem hy')

theorem dims_setPix {cv : List (List Bool)} {H W : Nat} (h : dims cv H W) (y x : Nat) :
    dims (setPix cv y x) H W := by
  by_cases hy : y < cv.length
  · refine ⟨by rw [setPix, List.length_set]; exact h.1, fun row hrow => ?_⟩
    rcases List.mem_or_eq_of_mem_set hrow with h' | h'
    · exact h.2 row h'
    · subst h'
      rw [List.length_set]
      exact getD_row_length h (h.1 ▸ hy)
  · rw [setPix, List.set_eq_of_length_le (Nat.le_of_not_lt hy)]
    exact h

theorem pixelAt_setPix (cv : List (List Bool)) (y x r c : Nat) (hy : y < cv.length)
    (hx : x < (cv.getD y []).length) :
    (pixelAt (setPix cv y x) r c = true ↔
      pixelAt cv r c = true ∨ (r = y ∧ c = x)) := by
  simp only [pixelAt, setPix, List.getD_eq_getElem?_getD] at hx ⊢
  rw [List.getElem?_set]
  by_cases hyr : y = r
  · subst hyr
    rw [if_pos rfl, if_pos hy, Option.getD_some, List.getElem?_set]
    by_cases hxc : x = c
    · subst hxc
      rw [if_pos rfl, if_pos hx]
      simp
    · rw [if_neg hxc]
      simp [Ne.symm hxc]
  · rw [if_neg hyr]
    simp [Ne.symm hyr]

/-! ## `drawRow` characterisation -/

theorem drawRow_cons (tw : Int) (y : Nat) (xb : Int) (cv : List (List Bool))
    (p : Nat × Bool) (ps : List (Nat × Bool)) :
    drawRow tw y xb cv (p :: ps) =
      drawRow tw y xb
        (if p.2 ∧ 0 ≤ xb + (p.1 : Int) ∧ xb + (p.1 : Int) < tw then
          setPix cv y (xb + (p.1 : Int)).toNat
        else cv) ps := rfl

theorem dims_drawRow (tw : Int) (y : Nat) (xb : Int) (cells : List (Nat × Bool))
    {cv : List (List Bool)} {H W : Nat} (h : dims cv H W) :
    dims (drawRow tw y xb cv cells) H W := by
  induction cells generalizing cv with
  | nil => exact h
  | cons p ps ih =>
    rw [drawRow_cons]
    split
    · exact ih (dims_setPix h _ _)
    · exact ih h

theorem pixelAt_drawRow (tw : Int) (y : Nat) (xb : Int) (cells : List (Nat × Bool))
    {cv : List (List Bool)} {H W : Nat} (hdims : dims cv H W) (hy : y < H)
    (htw : tw.toNat = W) (r c : Nat) :
    (pixelAt (drawRow tw y xb cv cells) r c = true ↔
      pixelAt cv r c = true ∨
        (r = y ∧ ∃ p ∈ cells, p.2 = true ∧ (c : Int) = xb + (p.1 : Int) ∧ c < W)) := by
  induction cells generalizing cv with
  | nil => simp [drawRow]
  | cons p ps ih =>
    rw [drawRow_cons]
    by_cases hcond : (p.2 = true ∧ 0 ≤ xb + (p.1 : Int) ∧ xb + (p.1 : Int) < tw)
    · rw [if_pos hcond, ih (dims_setPix hdims _ _)]
      have hylen : y < cv.length := hdims.1 ▸ hy
      have hxlen : (xb + (p.1 : Int)).toNat < (cv.getD y []).length := by
        rw [getD_row_length hdims hy, ← htw]
        omega
      rw [pixelAt_setPix cv y _ r c hylen hxlen]
      constructor
      · rintro ((h | ⟨hr, hc⟩) | ⟨hr, q, hq, hP⟩)
        · exact Or.inl h
        · refine Or.inr ⟨hr, p, List.mem_cons_self p ps, hcond.1, ?_, ?_⟩
          · omega
          · omega
        · exact Or.inr ⟨hr, q, List.mem_cons_of_mem p hq, hP⟩
      · rintro (h | ⟨hr, q, hq, hq2, hc, hcW⟩)
        · exact Or.inl (Or.inl h)
        · rcases List.mem_cons.mp hq with rfl | hq'
          · exact Or.inl (Or.inr ⟨hr, by omega⟩)
          · exact Or.inr ⟨hr, q, hq', hq2, hc, hcW⟩
    · rw [if_neg hcond, ih hdims]
      constructor
      · rintro (h | ⟨hr, q, hq, hP⟩)
        · exact Or.inl h
        · exact Or.inr ⟨hr, q, List.mem_cons_of_mem p hq, hP⟩
      · rintro (h | ⟨hr, q, hq, hq2, hc, hcW⟩)
        · exact Or.inl h
        · rcases List.mem_cons.mp hq with rfl | hq'
          · exact absurd ⟨hq2, by omega, by omega⟩ hcond
          · exact Or.inr ⟨hr, q, hq', hq2, hc, hcW⟩

/-! ## `drawRows` and the render fold -/

theorem drawRows_cons (th tw ys xb : Int) (cv : List (List Bool))
    (q : Nat × List Bool) (qs : List (Nat × List Bool)) :
    drawRows th tw ys xb cv (q :: qs) =
      drawRows th tw ys xb
        (if 0 ≤ ys + (q.1 : Int) ∧ ys + (q.1 : Int) < th then
          drawRow tw (ys + (q.1 : Int)).toNat xb cv q.2.enum
        else cv) qs := rfl

theorem dims_drawRows (th tw ys xb : Int) (qs : List (Nat × List Bool))
    {cv : List (List Bool)} {H W : Nat} (h : dims cv H W) :
    dims (drawRows th tw ys xb cv qs) H W := by
  induction qs generalizing cv with
  | nil => exact h
  | cons q qs ih =>
    rw [drawRows_cons]
    split
    · exact ih (dims_drawRow _ _ _ _ h)
    · exact ih h

theorem dims_drawGlyph (th tw ys xb : Int) (glyph : List (List Bool))
    {cv : List (List Bool)} {H W : Nat} (h : dims cv H W) :
    dims (drawGlyph th tw ys xb cv glyph) H W :=
  dims_drawRows th tw ys xb glyph.enum h

theorem pixelAt_drawRows (th tw ys xb : Int) (qs : List (Nat × List Bool))
    {cv : List (List Bool)} {H W : Nat} (hdims : dims cv H W) (hth : th.toNat = H)
    (htw : tw.toNat = W) (r c : Nat) :
    (pixelAt (drawRows th tw ys xb cv qs) r c = true ↔
      pixelAt cv r c = true ∨
        ∃ q ∈ qs, (r : Int) = ys + (q.1 : Int) ∧ r < H ∧
          ∃ p ∈ q.2.enum, p.2 = true ∧ (c : Int) = xb + (p.1 : Int) ∧ c < W) := by
  induction qs generalizing cv with
  | nil => simp [drawRows]
  | cons q qs ih =>
    rw [drawRows_cons]
    by_cases hcond : (0 ≤ ys + (q.1 : Int) ∧ ys + (q.1 : Int) < th)
    · rw [if_pos hcond, ih (dims_drawRow _ _ _ _ hdims)]
      have hyH : (ys + (q.1 : Int)).toNat < H := by omega
      rw [pixelAt_drawRow tw _ xb _ hdims hyH htw r c]
      constructor
      · rintro ((h | ⟨hr, hp⟩) | ⟨q', hq', hP⟩)
        · exact Or.inl h
        · exact Or.inr ⟨q, List.mem_cons_self q qs, by omega, by omega, hp⟩
        · exact Or.inr ⟨q', List.mem_cons_of_mem q hq', hP⟩
      · rintro (h | ⟨q', hq', hr, hrH, hp⟩)
        · exact Or.inl (Or.inl h)
        · rcases List.mem_cons.mp hq' with rfl | hmem
          · exact Or.inl (Or.inr ⟨by omega, hp⟩)
          · exact Or.inr ⟨q', hmem, hr, hrH, hp⟩
    · rw [if_neg hcond, ih hdims]
      constructor
      · rintro (h | ⟨q', hq', hP⟩)
        · exact Or.inl h
        · exact Or.inr ⟨q', List.mem_cons_of_mem q hq', hP⟩
      · rintro (h | ⟨q', hq', hr, hrH, hp⟩)
        · exact Or.inl h
        · rcases List.mem_cons.mp hq' with rfl | hmem
          · exact absurd ⟨by omega, by omega⟩ hcond
          · exact Or.inr ⟨q', hmem, hr, hrH, hp⟩

theorem renderStep_some (font : BDFFont) (th tw A spacing : Int)
    (acc : List (List Bool) × Int) (ch : Nat) (g : Glyph)
    (h : font.glyphs.lookup ch = some g) :
    renderStep font th tw A spacing acc ch =
      (drawGlyph th tw (A - (g.h : Int) - g.y_off) (acc.2 + g.x_off) acc.1 g.bitmap,
       acc.2 + (font.width : Int) + spacing) := by
  simp only [renderStep, h]

theorem renderStep_none (font : BDFFont) (th tw A spacing : Int)
    (acc : List (List Bool) × Int) (ch : Nat) (h : font.glyphs.lookup ch = none) :
    renderStep font th tw A spacing acc ch =
      (acc.1, acc.2 + (font.width : Int) + spacing) := by
  simp only [renderStep, h]

theorem dims_renderFold (font : BDFFont) (th tw A spacing : Int) (text : List Nat)
    {cv : List (List Bool)} {H W : Nat} (h : dims cv H W) (x : Int) :
    dims ((text.foldl (renderStep font th tw A spacing) (cv, x)).1) H W := by
  induction text generalizing cv x with
  | nil => exact h
  | cons ch rest ih =>
    rw [List.foldl_cons]
    cases hch : font.glyphs.lookup ch with
    | some g =>
      rw [renderStep_some font th tw A spacing (cv, x) ch g hch]
      exact ih (dims_drawGlyph _ _ _ _ _ h) _
    | none =>
      rw [renderStep_none font th tw A spacing (cv, x) ch hch]
      exact ih h _

theorem renderFold_cursor (font : BDFFont) (th tw A spacing : Int) (text : List Nat) :
    ∀ (cv : List (List Bool)) (x : Int),
      (text.foldl (renderStep font th tw A spacing) (cv, x)).2 =
        x + (text.length : Int) * ((font.width : Int) + spacing) := by
  induction text with
  | nil => intro cv x; simp
  | cons ch rest ih =>
    intro cv x
    rw [List.foldl_cons]
    cases hch : font.glyphs.lookup ch with
    | some g =>
      rw [renderStep_some font th tw A spacing (cv, x) ch g hch, ih]
      simp only [List.length_cons]
      push_cast
      ring
    | none =>
      rw [renderStep_none font th tw A spacing (cv, x) ch hch, ih]
      simp only [List.length_cons]
      push_cast
      ring

theorem pixelAt_renderFold (font : BDFFont) (th tw A spacing : Int) (text : List Nat)
    {cv : List (List Bool)} {H W : Nat} (hdims : dims cv H W) (hth : th.toNat = H)
    (htw : tw.toNat = W) (x : Int) (r c : Nat) :
    (pixelAt ((text.foldl (renderStep font th tw A spacing) (cv, x)).1) r c = true ↔
      pixelAt cv r c = true ∨
        ∃ (i ch : Nat) (g : Glyph), text[i]? = some ch ∧ font.glyphs.lookup ch = some g ∧
          ∃ q ∈ g.bitmap.enum, (r : Int) = A - (g.h : Int) - g.y_off + (q.1 : Int) ∧ r < H ∧
            ∃ p ∈ q.2.enum, p.2 = true ∧
              (c : Int) = x + (i : Int) * ((font.width : Int) + spacing) + g.x_off + (p.1 : Int) ∧
              c < W) := by
  induction text generalizing cv x with
  | nil => simp
  | cons ch0 rest ih =>
    rw [List.foldl_cons]
    cases hch : font.glyphs.lookup ch0 with
    | some g0 =>
      rw [renderStep_some font th tw A spacing (cv, x) ch0 g0 hch]
      rw [ih (dims_drawGlyph _ _ _ _ _ hdims) _]
      rw [drawGlyph, pixelAt_drawRows th tw _ _ _ hdims hth htw r c]
      constructor
      · rintro ((h | ⟨q, hq, hr, hrH, p, hpmem, hp2, hc, hcW⟩) |
          ⟨i, ch, g, hi, hg, q, hq, hr, hrH, p, hpmem, hp2, hc, hcW⟩)
        · exact Or.inl h
        · exact Or.inr ⟨0, ch0, g0, by simp, hch, q, hq, hr, hrH, p, hpmem, hp2,
            by rw [hc]; push_cast; ring, hcW⟩
        · exact Or.inr ⟨i + 1, ch, g, by simpa using hi, hg, q, hq, hr, hrH, p, hpmem, hp2,
            by rw [hc]; push_cast; ring, hcW⟩
      · rintro (h | ⟨i, ch, g, hi, hg, q, hq, hr, hrH, p, hpmem, hp2, hc, hcW⟩)
        · exact Or.inl (Or.inl h)
        · cases i with
          | zero =>
            have hch0 : ch0 = ch := by simpa using hi
            subst hch0
            rw [hch] at hg
            injection hg with hg
            subst hg
            exact Or.inl (Or.inr ⟨q, hq, hr, hrH, p, hpmem, hp2,
              by rw [hc]; push_cast; ring, hcW⟩)
          | succ j =>
            have hij : rest[j]? = some ch := by simpa using hi
            exact Or.inr ⟨j, ch, g, hij, hg, q, hq, hr, hrH, p, hpmem, hp2,
              by rw [hc]; push_cast; ring, hcW⟩
    | none =>
      rw [renderStep_none font th tw A spacing (cv, x) ch0 hch]
      rw [ih hdims _]
      constructor
      · rintro (h | ⟨i, ch, g, hi, hg, q, hq, hr, hrH, p, hpmem, hp2, hc, hcW⟩)
        · exact Or.inl h
        · exact Or.inr ⟨i + 1, ch, g, by simpa using hi, hg, q, hq, hr, hrH, p, hpmem, hp2,
            by rw [hc]; push_cast; ring, hcW⟩
      · rintro (h | ⟨i, ch, g, hi, hg, q, hq, hr, hrH, p, hpmem, hp2, hc, hcW⟩)
        · exact Or.inl h
        · cases i with
          | zero =>
            have hch0 : ch0 = ch := by simpa using hi
            subst hch0
            rw [hch] at hg
            cases hg
          | succ j =>
            have hij : rest[j]? = some ch := by simpa using hi
            exact Or.inr ⟨j, ch, g, hij, hg, q, hq, hr, hrH, p, hpmem, hp2,
              by rw [hc]; push_cast; ring, hcW⟩

/-! ## Relating the code's running maxima to the spec's list maxima -/

theorem foldl_max_elim (t : List Int) : ∀ x : Int, t.foldl max x = (t.max?).elim x (max x) := by
  induction t with
  | nil => intro x; rfl
  | cons y t ih =>
    intro x
    rw [List.foldl_cons, ih, List.max?_cons]
    cases ht : t.max? with
    | none => simp [Option.elim]
    | some m => simp [Option.elim, max_assoc]

theorem foldl_max_zero (l : List Int) : l.foldl max 0 = max 0 ((l.max?).getD 0) := by
  rw [foldl_max_elim]
  cases l.max? <;> simp [Option.elim]

theorem max?_getD_nonneg (l : List Int) (h : ∀ v ∈ l, 0 ≤ v) : 0 ≤ (l.max?).getD 0 := by
  cases l with
  | nil => simp
  | cons v t =>
    rw [List.max?_cons, Option.getD_some]
    cases ht : t.max? with
    | none => simpa [Option.elim] using h v (by simp)
    | some m =>
      simp only [Option.elim]
      exact le_trans (h v (by simp)) (le_max_left v m)

theorem metrics_eq_spec (font : BDFFont) (text : List Nat) :
    metrics font text = (max 0 (specMaxAscent font text), max 0 (specMaxDescent font text)) := by
  have key : ∀ (t : List Nat) (a d : Int),
      t.foldl
        (fun ad ch =>
          match font.glyphs.lookup ch with
          | some g =>
            (max ad.1 ((g.h : Int) + g.y_off), max ad.2 (if g.y_off < 0 then -g.y_off else 0))
          | none => ad)
        (a, d) =
      (((specPresent font t).map fun g => (g.h : Int) + g.y_off).foldl max a,
       ((specPresent font t).map fun g => if g.y_off < 0 then -g.y_off else 0).foldl max d) := by
    intro t
    induction t with
    | nil => intro a d; rfl
    | cons ch t ih =>
      intro a d
      rw [List.foldl_cons]
      cases hch : font.glyphs.lookup ch with
      | some g =>
        simp only [hch]
        rw [ih]
        simp [specPresent, List.filterMap_cons, hch]
      | none =>
        simp only [hch]
        rw [ih]
        simp [specPresent, List.filterMap_cons, hch]
  rw [metrics, key, foldl_max_zero, foldl_max_zero]
  rfl

theorem specMaxDescent_nonneg (font : BDFFont) (text : List Nat) :
    0 ≤ specMaxDescent font text := by
  refine max?_getD_nonneg _ fun v hv => ?_
  obtain ⟨g, _, rfl⟩ := List.mem_map.mp hv
  split <;> omega

theorem metrics_fst (font : BDFFont) (text : List Nat) :
    (metrics font text).1 = max 0 (specMaxAscent font text) := by
  rw [metrics_eq_spec]

theorem metrics_snd (font : BDFFont) (text : List Nat) :
    (metrics font text).2 = specMaxDescent font text := by
  rw [metrics_eq_spec]
  exact max_eq_right (specMaxDescent_nonneg font text)

/-! ## `render` facts -/

theorem render_dims (font : BDFFont) (text : List Nat) (spacing : Int) :
    dims (render font text spacing) (totalH font text).toNat
      (totalW font text spacing).toNat := by
  rw [render]
  exact dims_renderFold font _ _ _ spacing text (dims_replicate _ _) 0

theorem render_pixel_iff (font : BDFFont) (text : List Nat) (spacing : Int) (r c : Nat) :
    (pixelAt (render font text spacing) r c = true ↔
      specInk font text spacing (metrics font text).1 (totalH font text).toNat
        (totalW font text spacing).toNat r c) := by
  rw [render,
    pixelAt_renderFold font _ _ _ spacing text (dims_replicate _ _) rfl rfl 0 r c,
    pixelAt_replicate_false]
  rw [specInk]
  constructor
  · rintro (h | ⟨i, ch, g, hi, hg, q, hq, hr, hrH, p, hpmem, hp2, hc, hcW⟩)
    · cases h
    · have hqe := List.mem_enum_iff_getElem?.mp hq
      have hpe := List.mem_enum_iff_getElem?.mp hpmem
      refine ⟨i, ch, g, hi, hg, q.1, q.2, hqe, hr, hrH, p.1, ?_, by rw [hc]; ring, hcW⟩
      rw [hpe, hp2]
  · rintro ⟨i, ch, g, hi, hg, ri, row, hrow, hr, hrH, ci, hci, hc, hcW⟩
    refine Or.inr ⟨i, ch, g, hi, hg, (ri, row), List.mem_enum_iff_getElem?.mpr hrow, hr, hrH,
      (ci, true), List.mem_enum_iff_getElem?.mpr hci, rfl, by rw [hc]; ring, hcW⟩

/-- The concrete font used in counterexamples/witnesses: one glyph for
code 65 whose single pixel sits entirely below the baseline
(`h + y_off = -4 < 0`). -/
def fontNegA : BDFFont :=
  { glyphs := [(65, ⟨1, 1, 0, -5, [[true]]⟩)], width := 4, height := 8 }

/-- A one-glyph font with ordinary metrics, for witnesses. -/
def fontA : BDFFont :=
  { glyphs := [(65, ⟨1, 1, 0, 0, [[true]]⟩)], width := 4, height := 8 }

/-- C6 counterexample: for a glyph with `h + yOff < 0` the code clamps
`max_ascent` at 0, so the canvas is 5 rows tall, while the claim's
`maxAscent + maxDescent = (1 - 5) + 5 = 1`: the claimed height formula
fails on the code. -/
theorem baseline_height_counterexample :
    (render fontNegA [65] 0).length = 5 ∧
    (specHeight fontNegA [65]).toNat = 1 ∧
    (5 : Nat) ≠ 1 := by
  refine ⟨by decide, by decide, by decide⟩

/-- C6 amended: the canvas height is `max 0 maxAscent + maxDescent`
(the code starts its running maximum at 0, clamping a negative ascent),
with the font's default height when that sum is zero; and a pixel is set
iff some text character's glyph puts ink there, with vertical origin
`max 0 maxAscent - h - yOff` and horizontal origin the character's cell
start plus `xOff`, clipped to the canvas. -/
theorem baseline_and_placement (font : BDFFont) (text : List Nat) (spacing : Int) :
    (render font text spacing).length =
      (if max 0 (specMaxAscent font text) + specMaxDescent font text = 0 then (font.height : Int)
       else max 0 (specMaxAscent font text) + specMaxDescent font text).toNat ∧
    ∀ r c, (pixelAt (render font text spacing) r c = true ↔
      specInk font text spacing (max 0 (specMaxAscent font text))
        (totalH font text).toNat (totalW font text spacing).toNat r c) := by
  constructor
  · rw [(render_dims font text spacing).1, totalH, metrics_fst, metrics_snd]
  · intro r c
    rw [render_pixel_iff, metrics_fst]

/-- Witness for C6's amended height formula at a concrete font and text. -/
theorem baseline_and_placement_witness :
    (render fontA [65] 0).length =
      (if max 0 (specMaxAscent fontA [65]) + specMaxDescent fontA [65] = 0
       then (fontA.height : Int)
       else max 0 (specMaxAscent fontA [65]) + specMaxDescent fontA [65]).toNat :=
  (baseline_and_placement fontA [65] 0).1

/-- C7: the canvas of a non-empty text with non-negative spacing is
`len * width + (len - 1) * spacing` pixels wide; empty text gives a
width-0 canvas (no error — `render` is total); characters without a glyph
leave the canvas blank; and every character advances the cursor by
exactly `width + spacing`. -/
theorem canvas_width_and_advance (font : BDFFont) (text : List Nat) (spacing : Int) :
    (text ≠ [] → 0 ≤ spacing → ∀ row ∈ render font text spacing,
      (row.length : Int) =
        (text.length : Int) * (font.width : Int) + ((text.length : Int) - 1) * spacing) ∧
    (∀ row ∈ render font [] spacing, row.length = 0) ∧
    ((∀ ch ∈ text, font.glyphs.lookup ch = none) →
      ∀ r c, pixelAt (render font text spacing) r c = false) ∧
    (∀ (cv : List (List Bool)) (x : Int),
      (text.foldl
          (renderStep font (totalH font text) (totalW font text spacing)
            (metrics font text).1 spacing)
          (cv, x)).2 =
        x + (text.length : Int) * ((font.width : Int) + spacing)) := by
  refine ⟨?_, ?_, ?_, renderFold_cursor font _ _ _ spacing text⟩
  · intro hne hsp row hrow
    have hlen := (render_dims font text spacing).2 row hrow
    have h1 : 1 ≤ text.length := by
      cases text with
      | nil => exact absurd rfl hne
      | cons a t => simp
    have hW : 0 ≤ totalW font text spacing := by
      rw [totalW]
      have hm : max 0 ((text.length : Int) - 1) = (text.length : Int) - 1 :=
        max_eq_right (by omega)
      rw [hm]
      have : (0 : Int) ≤ (text.length : Int) * (font.width : Int) :=
        mul_nonneg (by positivity) (by positivity)
      nlinarith
    rw [hlen, Int.toNat_of_nonneg hW, totalW,
      max_eq_right (by omega : (0 : Int) ≤ (text.length : Int) - 1)]
  · intro row hrow
    have hlen := (render_dims font [] spacing).2 row hrow
    rw [hlen]
    rw [totalW]
    simp
  · intro hnone r c
    cases hpix : pixelAt (render font text spacing) r c with
    | false => rfl
    | true =>
      obtain ⟨i, ch, g, hi, hg, -⟩ := (render_pixel_iff font text spacing r c).mp hpix
      have hmem : ch ∈ text := by
        have := List.getElem?_eq_some_iff.mp hi
        obtain ⟨hlt, rfl⟩ := this
        exact List.getElem_mem hlt
      rw [hnone ch hmem] at hg
      cases hg

/-- Witness for C7 at a two-character text with spacing 2. -/
theorem canvas_width_witness :
    ([65, 66] : List Nat) ≠ [] ∧ (0 : Int) ≤ 2 ∧
      ∀ row ∈ render fontA [65, 66] 2,
        (row.length : Int) =
          (([65, 66] : List Nat).length : Int) * (fontA.width : Int) +
            ((([65, 66] : List Nat).length : Int) - 1) * 2 :=
  ⟨by decide, by decide,
   (canvas_width_and_advance fontA [65, 66] 2).1 (by decide) (by decide)⟩

/-! ## `text_to_braille` (outline-font path) -/

/-- The external outline rasterizer (PIL's `ImageFont`/`Image`/`ImageDraw`),
abstracted: loading a font by path and size may fail (`OSError`), a built-in
default font always exists, and drawing produces a greyscale pixel grid. -/
structure Rasterizer (F : Type) where
  truetype : String → Nat → Except Unit F
  load_default : F
  draw : F → List Nat → Nat → Nat → Except Unit (List (List Nat))

/-- `text_to_braille`: returns `""` for empty text before touching the
font; otherwise resolves the font size (`font_size or max(char_w, char_h)`,
Python `or` treating 0 and `None` alike), loads the font with fallback to
the default on `OSError`, draws, binarizes with `pixel < threshold`, and
encodes.  Failures of the external collaborator propagate as `.error`. -/
def text_to_braille {F : Type} (R : Rasterizer F) (text : List Nat) (font_path : String)
    (char_size : Nat × Nat) (font_size : Option Nat) (threshold : Nat) :
    Except Unit String :=
  if text = [] then .ok ""
  else
    let fs :=
      match font_size with
      | some n => if n = 0 then max char_size.1 char_size.2 else n
      | none => max char_size.1 char_size.2
    let font :=
      match R.truetype font_path fs with
      | .ok f => f
      | .error _ => R.load_default
    match R.draw font text char_size.1 char_size.2 with
    | .ok img =>
      .ok (bitmap_to_braille (img.map fun row => row.map fun p => decide (p < threshold)))
    | .error e => .error e

/-- C10: with empty text, `text_to_braille` returns `""` for every
rasterizer environment — including one whose font loading and drawing
always fail — and for every font path and parameter choice, so the font
resource is never consulted and no error can occur. -/
theorem text_to_braille_empty :
    ∀ (F : Type) (R : Rasterizer F) (font_path : String) (char_size : Nat × Nat)
      (font_size : Option Nat) (threshold : Nat),
      text_to_braille R [] font_path char_size font_size threshold = .ok "" :=
  fun _ _ _ _ _ _ => rfl

end Bigfoont
